import Mathlib

set_option maxHeartbeats 1000000
set_option maxRecDepth 4096

namespace CweChecker

/-! Shallow embedding of the P-Code-to-IR lifting module
(`src/cwe_checker_lib/src/pcode/term.rs`).  Rust panics are modelled by the
`Option` monad (`none` = the conversion aborts), machine integers by `Nat`
with explicit bounds checks where the Rust code could overflow.  Types and
helper functions that the module uses but that are declared in sibling files
outside `src/` (`Tid`, `Variable::to_load_def`, the IR types, the log
utilities, the sub-register canonicalization helper) are modelled from the
spec; each such definition carries a doc comment starting with
`Modelled from the spec:`. -/

/-- Modelled from the spec: a term identifier is an opaque stable name plus an
address; equality is by value. -/
structure Tid where
  id : String
  address : String
deriving DecidableEq

/-- Modelled from the spec: deriving a child identifier by appending a suffix
to the stable name. -/
def Tid.with_id_suffix (t : Tid) (suffix : String) : Tid :=
  { id := t.id ++ suffix, address := t.address }

/-- A term pairs an identifier with a content value. -/
structure Term (T : Type) where
  tid : Tid
  term : T
deriving DecidableEq

/-- A varnode: a register or temporary with a semantic name, a byte size, an
optional constant value and an optional fixed memory address.  A present
address marks the variable as denoting a memory-mapped location. -/
structure Variable where
  name : Option String
  value : Option String
  address : Option String
  size : Nat
  is_virtual : Bool
deriving DecidableEq

/-- The expression mnemonics used by the module.  The source dispatches on
`LOAD`, `STORE`, `SUBPIECE` and the cast family and treats every other
mnemonic uniformly; a representative set of the other mnemonics is included. -/
inductive ExpressionType where
  | COPY
  | LOAD
  | STORE
  | PIECE
  | SUBPIECE
  | POPCOUNT
  | INT_EQUAL
  | INT_ADD
  | INT_SUB
  | INT_ZEXT
  | INT_SEXT
  | INT2FLOAT
  | FLOAT2FLOAT
  | TRUNC
deriving DecidableEq

/-- A P-Code expression: an operation mnemonic plus up to three ordered
operand slots. -/
structure Expression where
  mnemonic : ExpressionType
  input0 : Option Variable
  input1 : Option Variable
  input2 : Option Variable
deriving DecidableEq

/-- An assignment instruction: an optional target varnode and a right-hand
side expression. -/
structure Def where
  lhs : Option Variable
  rhs : Expression
deriving DecidableEq

/-- A jump label: either the identifier of a direct target or a varnode
holding the target address of an indirect jump. -/
inductive Label where
  | Direct (tid : Tid)
  | Indirect (var : Variable)
deriving DecidableEq

/-- A call instruction descriptor. -/
structure Call where
  target : Option Label
  return_ : Option Label
  call_string : Option String
deriving DecidableEq

/-- The seven jump mnemonics. -/
inductive JmpType where
  | BRANCH
  | CBRANCH
  | BRANCHIND
  | CALL
  | CALLIND
  | CALLOTHER
  | RETURN
deriving DecidableEq

/-- A jump instruction with mnemonic-dependent optional fields. -/
structure Jmp where
  mnemonic : JmpType
  goto : Option Label
  call : Option Call
  condition : Option Variable
  target_hints : Option (List String)
deriving DecidableEq

/-- A basic block: `Def` terms in chronological order followed by the jump
terms at the end of the block. -/
structure Blk where
  defs : List (Term Def)
  jmps : List (Term Jmp)
deriving DecidableEq

/-- A subfunction: a name plus basic blocks.  The first block of the list may
not be the function entry point before normalization. -/
structure Sub where
  name : String
  blocks : List (Term Blk)
deriving DecidableEq

/-- The intent of an extern-symbol argument. -/
inductive ArgIntent where
  | INPUT
  | OUTPUT
deriving DecidableEq

/-- An argument of an extern symbol: an optional register varnode, an optional
stack-location expression, and an intent. -/
structure Arg where
  var : Option Variable
  location : Option Expression
  intent : ArgIntent
deriving DecidableEq

/-- An extern symbol parsed from the disassembler. -/
structure ExternSymbol where
  tid : Tid
  addresses : List String
  name : String
  calling_convention : Option String
  arguments : List Arg
  no_return : Bool
deriving DecidableEq

/-- The program: subfunctions, extern symbols, entry points and the reported
image base address as a hexadecimal string. -/
structure Program where
  subs : List (Term Sub)
  extern_symbols : List ExternSymbol
  entry_points : List Tid
  image_base : String
deriving DecidableEq

/-- A calling-convention record. -/
structure CallingConvention where
  name : String
  parameter_register : List String
  return_register : List String
  unaffected_register : List String
  killed_by_call_register : List String
deriving DecidableEq

/-- Modelled from the spec: a register-property record maps a named
sub-register to its containing base register, byte offset and byte size. -/
structure RegisterProperties where
  register : String
  base_register : String
  lsb : Nat
  size : Nat
deriving DecidableEq

/-- The project: program, architecture name, stack pointer register,
register-property records and known calling conventions. -/
structure Project where
  program : Term Program
  cpu_architecture : String
  stack_pointer_register : Variable
  register_properties : List RegisterProperties
  register_calling_convention : List CallingConvention
deriving DecidableEq

/-- Modelled from the spec: severity levels of the structured log messages the
core emits (the log utilities live outside this module). -/
inductive LogLevel where
  | Warning
  | Info
  | Debug
deriving DecidableEq

/-- Modelled from the spec: a structured log message. -/
structure LogMessage where
  level : LogLevel
  text : String
deriving DecidableEq

/-- Modelled from the spec: the log-message constructor the normalization pass
uses for the recoverable anomaly of a function without a correctly addressed
entry block; the spec describes the emitted message as warning-level. -/
def LogMessage.new_error (text : String) : LogMessage :=
  { level := LogLevel.Warning, text := text }

/-- The numeric value of one hexadecimal digit, or `none`. -/
def hexDigitVal (c : Char) : Option Nat :=
  if c ≥ '0' ∧ c ≤ '9' then some (c.toNat - Char.toNat '0')
  else if c ≥ 'a' ∧ c ≤ 'f' then some (c.toNat - Char.toNat 'a' + 10)
  else if c ≥ 'A' ∧ c ≤ 'F' then some (c.toNat - Char.toNat 'A' + 10)
  else none

/-- Accumulating hexadecimal parse of a digit list; fails on a non-digit. -/
def parseHexLoop : List Char → Nat → Option Nat
  | [], acc => some acc
  | c :: rest, acc =>
    match hexDigitVal c with
    | some d => parseHexLoop rest (acc * 16 + d)
    | none => none

/-- Hexadecimal parse of a character list as an unsigned 64-bit integer:
fails on the empty list, on any non-digit character and on overflow.  This
models `u64::from_str_radix(s, 16)` for the digit strings this module feeds
it (the stdlib parser also accepts a leading sign, which never occurs here). -/
def parseHexU64List (cs : List Char) : Option Nat :=
  match cs with
  | [] => none
  | _ :: _ =>
    match parseHexLoop cs 0 with
    | some n => if n < 18446744073709551616 then some n else none
    | none => none

/-- Models `u64::from_str_radix(s, 16)` on a string. -/
def u64_from_str_radix_16 (s : String) : Option Nat :=
  parseHexU64List s.toList

/-- Models `trim_start_matches("0x")` on the character list of a string:
every repetition of the leading `0x` is removed. -/
def strip0xList : List Char → List Char
  | '0' :: 'x' :: rest => strip0xList rest
  | l => l

/-- Hexadecimal parse after stripping a leading `0x`, as done for address
strings. -/
def parseHex0x (s : String) : Option Nat :=
  parseHexU64List (strip0xList s.toList)

/-- Models the subtraction `a - b` on `u64` in the source: the build traps
when the subtraction underflows, so the result is only defined for `b ≤ a`. -/
def checkedSub (a b : Nat) : Option Nat :=
  if b ≤ a then some (a - b) else none

/-- Modelled from the spec: the derived operation of the operand model that
produces a Load definition.  Given a varnode carrying a fixed address and a
pointer byte-size, it synthesizes a fresh temporary varnode of the byte-size
of the original (named from the caller-supplied label, with no fixed address)
and a `Def` whose left-hand side is the temporary and whose right-hand side is
a `LOAD` expression whose address operand is a constant-valued varnode built
from the address of the original varnode, sized at the pointer byte-size. -/
def Variable.to_load_def (v : Variable) (target_register_name : String)
    (generic_pointer_size : Nat) : Def :=
  { lhs := some { name := some target_register_name, value := none,
                  address := none, size := v.size, is_virtual := true },
    rhs := { mnemonic := ExpressionType.LOAD,
             input0 := none,
             input1 := some { name := none, value := v.address, address := none,
                              size := generic_pointer_size, is_virtual := false },
             input2 := none } }

/-- Modelled from the spec: an IR variable is a named register or temporary
with a byte size. -/
structure IrVariable where
  name : String
  size : Nat
  is_temp : Bool
deriving DecidableEq

/-- Modelled from the spec: the cast kinds of the IR. -/
inductive CastOpType where
  | IntZExt
  | IntSExt
  | Int2Float
  | Float2Float
  | Trunc
  | PopCount
deriving DecidableEq

/-- Modelled from the spec: binary operation kinds of the IR used here. -/
inductive BinOpType where
  | Piece
  | IntAdd
  | IntSub
  | IntEqual
deriving DecidableEq

/-- Modelled from the spec: IR expressions — variables, constants, operators,
casts and subpiece (byte-range) views.  Constants carry a value and a byte
size. -/
inductive IrExpression where
  | Var (var : IrVariable)
  | Const (value : Nat) (size : Nat)
  | BinOp (op : BinOpType) (lhs : IrExpression) (rhs : IrExpression)
  | Cast (op : CastOpType) (size : Nat) (arg : IrExpression)
  | Subpiece (low_byte : Nat) (size : Nat) (arg : IrExpression)
  | Unknown (description : String) (size : Nat)
deriving DecidableEq

/-- Modelled from the spec: IR definitions — loads, stores and assignments. -/
inductive IrDef where
  | Load (var : IrVariable) (address : IrExpression)
  | Store (address : IrExpression) (value : IrExpression)
  | Assign (var : IrVariable) (value : IrExpression)
deriving DecidableEq

/-- Modelled from the spec: IR jump terms, one variant per mnemonic shape. -/
inductive IrJmp where
  | Branch (target : Tid)
  | CBranch (target : Tid) (condition : IrExpression)
  | BranchInd (target : IrExpression)
  | Call (target : Tid) (return_ : Option Tid)
  | CallInd (target : IrExpression) (return_ : Option Tid)
  | CallOther (description : String) (return_ : Option Tid)
  | Return (target : IrExpression)
deriving DecidableEq

/-- Modelled from the spec: an IR basic block with its list of indirect-jump
target-address hints. -/
structure IrBlk where
  defs : List (Term IrDef)
  jmps : List (Term IrJmp)
  indirect_jmp_targets : List String
deriving DecidableEq

/-- Modelled from the spec: an IR subfunction; the first block is the entry
point. -/
structure IrSub where
  name : String
  blocks : List (Term IrBlk)
deriving DecidableEq

/-- Modelled from the spec: an IR argument is either a register or a stack
location given by a signed offset and a byte size. -/
inductive IrArg where
  | Register (var : IrVariable)
  | Stack (offset : Int) (size : Nat)
deriving DecidableEq

/-- Modelled from the spec: a lifted extern symbol with its arguments
partitioned into parameters and return values. -/
structure IrExternSymbol where
  tid : Tid
  addresses : List String
  name : String
  calling_convention : Option String
  parameters : List IrArg
  return_values : List IrArg
  no_return : Bool
deriving DecidableEq

/-- Modelled from the spec: a lifted calling convention. -/
structure IrCallingConvention where
  name : String
  parameter_register : List String
  return_register : List String
  callee_saved_register : List String
deriving DecidableEq

/-- Modelled from the spec: the lifted program, with the image-base offset. -/
structure IrProgram where
  subs : List (Term IrSub)
  extern_symbols : List IrExternSymbol
  entry_points : List Tid
  address_base_offset : Nat
deriving DecidableEq

/-- Modelled from the spec: the lifted project. -/
structure IrProject where
  program : Term IrProgram
  cpu_architecture : String
  stack_pointer_register : IrVariable
  calling_conventions : List IrCallingConvention
deriving DecidableEq

/-- Option-monad map over a list, mirroring a Rust loop of fallible
conversions: the whole map fails as soon as one element fails. -/
def mapOpt (f : α → Option β) : List α → Option (List β)
  | [] => some []
  | a :: as => do
    let b ← f a
    let bs ← mapOpt f as
    pure (b :: bs)

/-- Modelled from the spec: lifting a varnode to an IR variable requires a
semantic name; an unnamed varnode aborts the conversion. -/
def Variable.intoIrVariable (v : Variable) : Option IrVariable :=
  v.name.map (fun n => { name := n, size := v.size, is_temp := v.is_virtual })

/-- Modelled from the spec: the constant denoted by a varnode that carries a
fixed address or a constant value, parsed from hexadecimal text after
stripping a leading `0x`. -/
def Variable.parse_to_bitvector (v : Variable) : Option Nat :=
  match v.address with
  | some s => parseHex0x s
  | none =>
    match v.value with
    | some s => parseHex0x s
    | none => none

/-- Modelled from the spec: a varnode holding a byte count, parsed from its
constant value. -/
def Variable.parse_to_bytesize (v : Variable) : Option Nat :=
  match v.name, v.value with
  | none, some s => parseHex0x s
  | _, _ => none

/-- Modelled from the spec: lifting a varnode operand to an IR expression — a
named varnode becomes a variable reference, an unnamed one with a constant
value or fixed address becomes a constant of the byte size of the varnode. -/
def Variable.intoIrExpression (v : Variable) : Option IrExpression :=
  match v.name with
  | some n => some (IrExpression.Var { name := n, size := v.size, is_temp := v.is_virtual })
  | none =>
    match v.value with
    | some s => (parseHex0x s).map (fun n => IrExpression.Const n v.size)
    | none =>
      match v.address with
      | some s => (parseHex0x s).map (fun n => IrExpression.Const n v.size)
      | none => none

/-- Maps the cast-family mnemonics to IR cast kinds. -/
def ExpressionType.intoCastOp : ExpressionType → Option CastOpType
  | ExpressionType.INT_ZEXT => some CastOpType.IntZExt
  | ExpressionType.INT_SEXT => some CastOpType.IntSExt
  | ExpressionType.INT2FLOAT => some CastOpType.Int2Float
  | ExpressionType.FLOAT2FLOAT => some CastOpType.Float2Float
  | ExpressionType.TRUNC => some CastOpType.Trunc
  | ExpressionType.POPCOUNT => some CastOpType.PopCount
  | _ => none

/-- Lifts the two operands of a binary mnemonic. -/
def Expression.binopIr (e : Expression) (op : BinOpType) : Option IrExpression := do
  let a ← e.input0
  let ae ← a.intoIrExpression
  let b ← e.input1
  let be ← b.intoIrExpression
  pure (IrExpression.BinOp op ae be)

/-- Modelled from the spec: structural lifting of a pure P-Code expression to
an IR expression.  The memory pseudo-operations and the cast family are
intercepted at the `Def` level, so lifting them here aborts, exactly like the
operand-model conversion this models. -/
def Expression.intoIrExpression (e : Expression) : Option IrExpression :=
  match e.mnemonic with
  | ExpressionType.COPY => e.input0.bind Variable.intoIrExpression
  | ExpressionType.PIECE => e.binopIr BinOpType.Piece
  | ExpressionType.INT_ADD => e.binopIr BinOpType.IntAdd
  | ExpressionType.INT_SUB => e.binopIr BinOpType.IntSub
  | ExpressionType.INT_EQUAL => e.binopIr BinOpType.IntEqual
  | _ => none

/-- Unwraps a direct label; an indirect label aborts the conversion. -/
def unwrap_label_direct : Label → Option Tid
  | Label.Direct tid => some tid
  | Label.Indirect _ => none

/-- Unwraps an indirect label; a direct label aborts the conversion. -/
def unwrap_label_indirect : Label → Option Variable
  | Label.Indirect var => some var
  | Label.Direct _ => none

/-- Maps the optional return label of a call through `unwrap_label_direct`:
an absent label stays absent, a present indirect label aborts. -/
def mapReturnLabel : Option Label → Option (Option Tid)
  | none => some none
  | some l => (unwrap_label_direct l).map some

/-- Converts a P-Code jump to the IR, dispatching on the mnemonic.  Any
mismatch between the mnemonic and the shape of the supplied fields aborts. -/
def Jmp.intoIrJmp (jmp : Jmp) : Option IrJmp :=
  match jmp.mnemonic with
  | JmpType.BRANCH => do
    let l ← jmp.goto
    let tid ← unwrap_label_direct l
    pure (IrJmp.Branch tid)
  | JmpType.CBRANCH => do
    let l ← jmp.goto
    let tid ← unwrap_label_direct l
    let c ← jmp.condition
    let ce ← c.intoIrExpression
    pure (IrJmp.CBranch tid ce)
  | JmpType.BRANCHIND => do
    let l ← jmp.goto
    let v ← unwrap_label_indirect l
    let ve ← v.intoIrExpression
    pure (IrJmp.BranchInd ve)
  | JmpType.CALL => do
    let call ← jmp.call
    let t ← call.target
    let tid ← unwrap_label_direct t
    let ret ← mapReturnLabel call.return_
    pure (IrJmp.Call tid ret)
  | JmpType.CALLIND => do
    let call ← jmp.call
    let t ← call.target
    let v ← unwrap_label_indirect t
    let ve ← v.intoIrExpression
    let ret ← mapReturnLabel call.return_
    pure (IrJmp.CallInd ve ret)
  | JmpType.CALLOTHER => do
    let call ← jmp.call
    let s ← call.call_string
    let ret ← mapReturnLabel call.return_
    pure (IrJmp.CallOther s ret)
  | JmpType.RETURN => do
    let l ← jmp.goto
    let v ← unwrap_label_indirect l
    let ve ← v.intoIrExpression
    pure (IrJmp.Return ve)

/-- Converts a P-Code instruction to the IR, dispatching on the mnemonic of
the right-hand side: `LOAD`, `STORE` and `SUBPIECE` are special, the cast
family becomes a cast assignment, and every other mnemonic becomes either a
store to the fixed address of the target varnode (when it carries one) or a
plain assignment. -/
def Def.intoIrDef (d : Def) : Option IrDef :=
  match d.rhs.mnemonic with
  | ExpressionType.LOAD => do
    let v ← d.lhs
    let iv ← v.intoIrVariable
    let a ← d.rhs.input1
    let ae ← a.intoIrExpression
    pure (IrDef.Load iv ae)
  | ExpressionType.STORE => do
    let a ← d.rhs.input1
    let ae ← a.intoIrExpression
    let w ← d.rhs.input2
    let we ← w.intoIrExpression
    pure (IrDef.Store ae we)
  | ExpressionType.SUBPIECE => do
    let lhs ← d.lhs
    let ilhs ← lhs.intoIrVariable
    let i1 ← d.rhs.input1
    let low ← i1.parse_to_bytesize
    let i0 ← d.rhs.input0
    let arg ← i0.intoIrExpression
    pure (IrDef.Assign ilhs (IrExpression.Subpiece low lhs.size arg))
  | ExpressionType.INT_ZEXT | ExpressionType.INT_SEXT | ExpressionType.INT2FLOAT
  | ExpressionType.FLOAT2FLOAT | ExpressionType.TRUNC | ExpressionType.POPCOUNT => do
    let lhs ← d.lhs
    let ilhs ← lhs.intoIrVariable
    let op ← d.rhs.mnemonic.intoCastOp
    let i0 ← d.rhs.input0
    let arg ← i0.intoIrExpression
    pure (IrDef.Assign ilhs (IrExpression.Cast op lhs.size arg))
  | _ => do
    let target_var ← d.lhs
    if target_var.address.isSome then do
      let c ← target_var.parse_to_bitvector
      let ve ← d.rhs.intoIrExpression
      pure (IrDef.Store (IrExpression.Const c target_var.size) ve)
    else do
      let iv ← target_var.intoIrVariable
      let ve ← d.rhs.intoIrExpression
      pure (IrDef.Assign iv ve)

/-- Converts a P-Code block to the IR: all defs and jumps are lifted in
order, and the indirect-jump target hints are taken from the first jump term
whose hint field is present (empty if no jump carries the field). -/
def Blk.intoIrBlk (blk : Blk) : Option IrBlk := do
  let defs ← mapOpt
    (fun dt => (Def.intoIrDef dt.term).map
      (fun d => ({ tid := dt.tid, term := d } : Term IrDef))) blk.defs
  let indirect_jmp_targets := (blk.jmps.findSome? (fun jt => jt.term.target_hints)).getD []
  let jmps ← mapOpt
    (fun jt => (Jmp.intoIrJmp jt.term).map
      (fun j => ({ tid := jt.tid, term := j } : Term IrJmp))) blk.jmps
  pure { defs := defs, jmps := jmps, indirect_jmp_targets := indirect_jmp_targets }

/-- The index of the first block whose identifier address equals the given
address, mirroring the search loop of the entry-block repair. -/
def findStartIdx (addr : String) : List (Term Blk) → Option Nat
  | [] => none
  | b :: rest =>
    if b.tid.address = addr then some 0
    else (findStartIdx addr rest).map (fun i => i + 1)

/-- Swaps the elements at two valid positions of a list, mirroring
`Vec::swap`; out-of-range positions leave the list unchanged (the source
would trap, but every call site below passes valid positions). -/
def listSwap (l : List α) (i j : Nat) : List α :=
  match l.get? i, l.get? j with
  | some a, some b => (l.set i b).set j a
  | _, _ => l

/-- The entry-block repair performed while lifting a `Sub`: if the first
block does not carry the address of the `Sub`, the first block with that
address is swapped into position 0; if no block carries it, this is the fatal
inconsistency path of the lifter. -/
def entryRepair (sub : Term Sub) : Option (List (Term Blk)) :=
  match sub.term.blocks with
  | [] => some sub.term.blocks
  | b0 :: _ =>
    if sub.tid.address = b0.tid.address then some sub.term.blocks
    else
      match findStartIdx sub.tid.address sub.term.blocks with
      | some i => some (listSwap sub.term.blocks 0 i)
      | none => none

/-- Converts a `Sub` term to the IR, repairing the block order so that the
first block is the function entry point. -/
def Term.intoIrSubTerm (sub : Term Sub) : Option (Term IrSub) := do
  let blocks ← entryRepair sub
  let irblocks ← mapOpt
    (fun bt => (Blk.intoIrBlk bt.term).map
      (fun b => ({ tid := bt.tid, term := b } : Term IrBlk))) blocks
  pure { tid := sub.tid, term := { name := sub.term.name, blocks := irblocks } }

/-- Converts one extern-symbol argument: a register-backed argument lifts to
a register reference (the register field takes the first branch), a
stack-backed argument must be a `LOAD` expression whose first operand carries
a constant address interpreted as a signed stack offset; an argument with
neither field aborts. -/
def Arg.intoIrArg (arg : Arg) : Option IrArg :=
  match arg.var with
  | some v => (v.intoIrVariable).map IrArg.Register
  | none =>
    match arg.location with
    | some expr =>
      if expr.mnemonic = ExpressionType.LOAD then do
        let i0 ← expr.input0
        let addr ← i0.address
        let offset ← parseHexU64List (strip0xList addr.toList)
        if offset ≤ 9223372036854775807 then
          pure (IrArg.Stack (Int.ofNat offset) i0.size)
        else none
      else none
    | none => none

/-- Partitions the arguments of an extern symbol into parameters and return
values by intent, preserving order within each group. -/
def argsPartitionLoop : List Arg → Option (List IrArg × List IrArg)
  | [] => some ([], [])
  | arg :: rest => do
    let ir_arg ← arg.intoIrArg
    let r ← argsPartitionLoop rest
    match arg.intent with
    | ArgIntent.INPUT => pure (ir_arg :: r.fst, r.snd)
    | ArgIntent.OUTPUT => pure (r.fst, ir_arg :: r.snd)

/-- Converts an extern symbol to the IR. -/
def ExternSymbol.intoIrExternSymbol (symbol : ExternSymbol) : Option IrExternSymbol := do
  let r ← argsPartitionLoop symbol.arguments
  pure { tid := symbol.tid, addresses := symbol.addresses, name := symbol.name,
         calling_convention := symbol.calling_convention,
         parameters := r.fst, return_values := r.snd, no_return := symbol.no_return }

/-- Converts a calling convention to the IR: field renaming only. -/
def CallingConvention.intoIrCallingConvention (cconv : CallingConvention) : IrCallingConvention :=
  { name := cconv.name,
    parameter_register := cconv.parameter_register,
    return_register := cconv.return_register,
    callee_saved_register := cconv.unaffected_register }

/-- Converts a program to the IR: all subs and extern symbols are lifted and
the address base offset is the hexadecimal parse of the image base string
(fed directly to the radix-16 integer parser) minus the caller-supplied
binary base address. -/
def Program.into_ir_program (p : Program) (binary_base_address : Nat) : Option IrProgram := do
  let subs ← mapOpt Term.intoIrSubTerm p.subs
  let extern_symbols ← mapOpt ExternSymbol.intoIrExternSymbol p.extern_symbols
  let parsed ← u64_from_str_radix_16 p.image_base
  let address_base_offset ← checkedSub parsed binary_base_address
  pure { subs := subs, extern_symbols := extern_symbols,
         entry_points := p.entry_points, address_base_offset := address_base_offset }

/-- The synthesized load for one operand slot of a `Def`, present exactly
when the slot holds a varnode carrying a fixed address. -/
def slotLoad (gps : Nat) (slot : Option Variable) (tempName : String) : Option Def :=
  match slot with
  | some input => if input.address.isSome then some (input.to_load_def tempName gps) else none
  | none => none

/-- The zero or one load terms synthesized for one operand slot, tagged with
the given derived identifier. -/
def slotLoadTerms (gps : Nat) (slot : Option Variable) (tempName : String) (tag : Tid) :
    List (Term Def) :=
  match slotLoad gps slot tempName with
  | some ld => [{ tid := tag, term := ld }]
  | none => []

/-- The load terms synthesized for the operand slots of one def term, in slot
order, each identified by the identifier of the def suffixed with the
operand-slot tag. -/
def loadTermsOf (gps : Nat) (dt : Term Def) : List (Term Def) :=
  slotLoadTerms gps dt.term.rhs.input0 "$load_temp0" (dt.tid.with_id_suffix "_load0") ++
  slotLoadTerms gps dt.term.rhs.input1 "$load_temp1" (dt.tid.with_id_suffix "_load1") ++
  slotLoadTerms gps dt.term.rhs.input2 "$load_temp2" (dt.tid.with_id_suffix "_load2")

/-- One operand slot of the cleaned def: an addressed varnode is replaced by
the left-hand side of its synthesized load, other slots are unchanged. -/
def cleanedSlot (gps : Nat) (slot : Option Variable) (tempName : String) : Option Variable :=
  match slotLoad gps slot tempName with
  | some ld => ld.lhs
  | none => slot

/-- The cleaned def term: same identifier, addressed operand slots replaced
by the fresh temporaries of their synthesized loads. -/
def cleanedTermOf (gps : Nat) (dt : Term Def) : Term Def :=
  { tid := dt.tid,
    term := { lhs := dt.term.lhs,
              rhs := { mnemonic := dt.term.rhs.mnemonic,
                       input0 := cleanedSlot gps dt.term.rhs.input0 "$load_temp0",
                       input1 := cleanedSlot gps dt.term.rhs.input1 "$load_temp1",
                       input2 := cleanedSlot gps dt.term.rhs.input2 "$load_temp2" } } }

/-- The per-def body of the implicit-load materialization loop: the
synthesized loads are pushed first, then the cleaned def. -/
def refactorOneDef (gps : Nat) (dt : Term Def) : List (Term Def) :=
  loadTermsOf gps dt ++ [cleanedTermOf gps dt]

/-- The def part of the implicit-load materialization pass. -/
def refactorDefsLoop (gps : Nat) : List (Term Def) → List (Term Def)
  | [] => []
  | dt :: rest => refactorOneDef gps dt ++ refactorDefsLoop gps rest

/-- The per-jump body of the implicit-load materialization loop: for a
`BRANCHIND` or `CALLIND` jump whose indirect target carries a fixed address,
the target is replaced by a fresh temporary and a load def identified by the
jump identifier suffixed `_load` is emitted; a jump of these mnemonics with a
missing or direct target aborts. -/
def refactorOneJmp (gps : Nat) (index : Nat) (jt : Term Jmp) :
    Option (Term Jmp × List (Term Def)) :=
  match jt.term.mnemonic with
  | JmpType.BRANCHIND => do
    let l ← jt.term.goto
    let input ← unwrap_label_indirect l
    if input.address.isSome then do
      let load_def := input.to_load_def ("$load_temp" ++ toString index) gps
      let newv ← load_def.lhs
      pure (({ tid := jt.tid,
               term := { jt.term with goto := some (Label.Indirect newv) } } : Term Jmp),
            [({ tid := jt.tid.with_id_suffix "_load", term := load_def } : Term Def)])
    else pure (jt, [])
  | JmpType.CALLIND => do
    let call ← jt.term.call
    let t ← call.target
    let input ← unwrap_label_indirect t
    if input.address.isSome then do
      let load_def := input.to_load_def ("$load_temp" ++ toString index) gps
      let newv ← load_def.lhs
      pure (({ tid := jt.tid,
               term := { jt.term with
                         call := some { call with target := some (Label.Indirect newv) } } } : Term Jmp),
            [({ tid := jt.tid.with_id_suffix "_load", term := load_def } : Term Def)])
    else pure (jt, [])
  | _ => pure (jt, [])

/-- The jump part of the implicit-load materialization pass, with the running
index used to name the fresh temporaries. -/
def refactorJmpsLoop (gps : Nat) : Nat → List (Term Jmp) →
    Option (List (Term Jmp) × List (Term Def))
  | _, [] => some ([], [])
  | index, jt :: rest => do
    let r ← refactorOneJmp gps index jt
    let rs ← refactorJmpsLoop gps (index + 1) rest
    pure (r.fst :: rs.fst, r.snd ++ rs.snd)

/-- Adds explicit `LOAD` instructions for the implicit constant-address
memory accesses of one block: each def is preceded by the synthesized loads
for its addressed operand slots, and the loads for indirect jump targets are
appended at the end of the rewritten def list. -/
def Blk.add_load_defs_for_implicit_ram_access (blk : Blk) (generic_pointer_size : Nat) :
    Option Blk := do
  let r ← refactorJmpsLoop generic_pointer_size 0 blk.jmps
  pure { defs := refactorDefsLoop generic_pointer_size blk.defs ++ r.snd, jmps := r.fst }

/-- The per-sub body of the entry-block validation pass of `normalize`: a sub
with a non-empty block list whose first block does not carry the address of
the sub and none of whose blocks carries it is downgraded to an empty-block
stub with one log message; every other sub is left unchanged. -/
def normalizeSub (st : Term Sub) : Term Sub × List LogMessage :=
  match st.term.blocks with
  | [] => (st, [])
  | b0 :: _ =>
    if st.tid.address ≠ b0.tid.address ∧
       (st.term.blocks.find? (fun block => decide (block.tid.address = st.tid.address))).isNone = true
    then (({ tid := st.tid, term := { name := st.term.name, blocks := [] } } : Term Sub),
          [LogMessage.new_error
            ("Starting block of function " ++ st.term.name ++ " (" ++ st.tid.id ++ ") not found.")])
    else (st, [])

/-- Applies the implicit-load materialization pass to every block of a sub. -/
def subAddLoadDefs (gps : Nat) (st : Term Sub) : Option (Term Sub) := do
  let blocks ← mapOpt
    (fun bt => (Blk.add_load_defs_for_implicit_ram_access bt.term gps).map
      (fun b => ({ tid := bt.tid, term := b } : Term Blk))) st.term.blocks
  pure { tid := st.tid, term := { name := st.term.name, blocks := blocks } }

/-- The normalization passes: implicit-load materialization over every block
of every sub, then entry-block validation over every sub, collecting the log
messages in sub order. -/
def Project.normalize (p : Project) : Option (Project × List LogMessage) := do
  let gps := p.stack_pointer_register.size
  let subs_a ← mapOpt (subAddLoadDefs gps) p.program.term.subs
  let pairs := subs_a.map normalizeSub
  let subs_b := pairs.map Prod.fst
  let logs := (pairs.map Prod.snd).flatten
  pure ({ p with program := { tid := p.program.tid,
                              term := { p.program.term with subs := subs_b } } }, logs)

/-- Modelled from the spec: lookup in the read-only register-alias table; the
table is built by inserting each record keyed by its register name, with a
later record for the same name replacing an earlier one. -/
def lookupReg (rmap : List RegisterProperties) (name : String) : Option RegisterProperties :=
  rmap.reverse.find? (fun p => p.register == name)

/-- Modelled from the spec: the canonical base-register variable of an alias
record; its size is taken from the record of the base register itself. -/
def baseVariable (rmap : List RegisterProperties) (p : RegisterProperties) : IrVariable :=
  { name := p.base_register,
    size := match lookupReg rmap p.base_register with
            | some q => q.size
            | none => p.size,
    is_temp := false }

/-- Modelled from the spec: sub-register canonicalization of one expression —
every reference to a register whose name is a known alias of a larger base
register, wherever it appears, becomes an explicit subpiece view of the base
register at the byte offset and size of the alias. -/
def castSubRegsExpr (rmap : List RegisterProperties) : IrExpression → IrExpression
  | IrExpression.Var v =>
    (match lookupReg rmap v.name with
     | some p =>
       if p.register == p.base_register then IrExpression.Var v
       else IrExpression.Subpiece p.lsb p.size (IrExpression.Var (baseVariable rmap p))
     | none => IrExpression.Var v)
  | IrExpression.Const n s => IrExpression.Const n s
  | IrExpression.BinOp op a b =>
    IrExpression.BinOp op (castSubRegsExpr rmap a) (castSubRegsExpr rmap b)
  | IrExpression.Cast op s a => IrExpression.Cast op s (castSubRegsExpr rmap a)
  | IrExpression.Subpiece lb s a => IrExpression.Subpiece lb s (castSubRegsExpr rmap a)
  | IrExpression.Unknown d s => IrExpression.Unknown d s

/-- Modelled from the spec: recognizes the zero-extension idiom `base :=
zext(alias)` in the instruction following a write to the alias, which the
canonical rewrite makes redundant. -/
def isZeroExtendIdiom (p : RegisterProperties) (nxt : Term IrDef) : Bool :=
  match nxt.term with
  | IrDef.Assign v2 (IrExpression.Cast CastOpType.IntZExt _ (IrExpression.Var w)) =>
    w.name == p.register && v2.name == p.base_register
  | _ => false

/-- Modelled from the spec: the value stored into the base register when a
sub-register alias is written, re-expressed on the base register.  The spec
fixes only that the write is redirected to the base register and that a
following zero-extension idiom becomes redundant; the untouched bytes of the
base are preserved with piece and subpiece operations. -/
def pieceExpr (p : RegisterProperties) (baseVar : IrVariable) (e1 : IrExpression) : IrExpression :=
  IrExpression.BinOp BinOpType.Piece
    (IrExpression.Subpiece (p.lsb + p.size) (baseVar.size - (p.lsb + p.size))
      (IrExpression.Var baseVar))
    (if p.lsb == 0 then e1
     else IrExpression.BinOp BinOpType.Piece e1
       (IrExpression.Subpiece 0 p.lsb (IrExpression.Var baseVar)))

/-- The result of canonicalizing an expression together with its output
variable: the rewritten expression, the rewritten output variable and the
identifiers of following defs marked for deletion. -/
structure CastOutResult where
  expr : IrExpression
  var : IrVariable
  marks : List Tid

/-- Modelled from the spec: canonicalization of a def body with an output
variable.  Operand references are rewritten; a write to a known alias is
redirected to the base register, and if the next instruction in program order
is the zero-extension idiom for that alias it is marked for deletion and the
written value is zero-extended instead. -/
def castWithOutput (rmap : List RegisterProperties) (var : IrVariable)
    (e : IrExpression) (peeked : Option (Term IrDef)) : CastOutResult :=
  let e1 := castSubRegsExpr rmap e
  match lookupReg rmap var.name with
  | none => { expr := e1, var := var, marks := [] }
  | some p =>
    if p.register == p.base_register then { expr := e1, var := var, marks := [] }
    else
      let baseVar := baseVariable rmap p
      match peeked with
      | some nxt =>
        if isZeroExtendIdiom p nxt then
          { expr := IrExpression.Cast CastOpType.IntZExt baseVar.size e1,
            var := baseVar, marks := [nxt.tid] }
        else { expr := pieceExpr p baseVar e1, var := baseVar, marks := [] }
      | none => { expr := pieceExpr p baseVar e1, var := baseVar, marks := [] }

/-- Canonicalizes one def term, peeking at the following def. -/
def castIrDef (rmap : List RegisterProperties) (dt : Term IrDef)
    (peeked : Option (Term IrDef)) : Term IrDef × List Tid :=
  match dt.term with
  | IrDef.Assign var value =>
    let r := castWithOutput rmap var value peeked
    (({ tid := dt.tid, term := IrDef.Assign r.var r.expr } : Term IrDef), r.marks)
  | IrDef.Load var address =>
    let r := castWithOutput rmap var address peeked
    (({ tid := dt.tid, term := IrDef.Load r.var r.expr } : Term IrDef), r.marks)
  | IrDef.Store address value =>
    (({ tid := dt.tid,
        term := IrDef.Store (castSubRegsExpr rmap address) (castSubRegsExpr rmap value) } :
        Term IrDef), [])

/-- Canonicalizes the defs of one block in order, peeking at the next def and
accumulating the identifiers marked for deletion. -/
def castDefsLoop (rmap : List RegisterProperties) (acc : List Tid) :
    List (Term IrDef) → List (Term IrDef) × List Tid
  | [] => ([], acc)
  | dt :: rest =>
    let r := castIrDef rmap dt rest.head?
    let rs := castDefsLoop rmap (acc ++ r.snd) rest
    (r.fst :: rs.fst, rs.snd)

/-- Canonicalizes one jump term: indirect targets, conditions and return
targets are rewritten. -/
def castIrJmpTerm (rmap : List RegisterProperties) (jt : Term IrJmp) : Term IrJmp :=
  { tid := jt.tid,
    term := match jt.term with
            | IrJmp.BranchInd dest => IrJmp.BranchInd (castSubRegsExpr rmap dest)
            | IrJmp.CBranch target cond => IrJmp.CBranch target (castSubRegsExpr rmap cond)
            | IrJmp.CallInd target ret => IrJmp.CallInd (castSubRegsExpr rmap target) ret
            | IrJmp.Return dest => IrJmp.Return (castSubRegsExpr rmap dest)
            | other => other }

/-- Membership of an identifier in the accumulated mark set. -/
def tidMem (t : Tid) : List Tid → Bool
  | [] => false
  | a :: rest => decide (a = t) || tidMem t rest

/-- Canonicalizes one block term: defs are rewritten with peeking, jumps are
rewritten, and every def whose identifier is in the accumulated mark set is
removed from the def list of the block. -/
def processIrBlkTerm (rmap : List RegisterProperties) (acc : List Tid)
    (bt : Term IrBlk) : Term IrBlk × List Tid :=
  let r := castDefsLoop rmap acc bt.term.defs
  let jmps1 := bt.term.jmps.map (castIrJmpTerm rmap)
  let defs2 := r.fst.filter (fun dt => !(tidMem dt.tid r.snd))
  (({ tid := bt.tid,
      term := { defs := defs2, jmps := jmps1,
                indirect_jmp_targets := bt.term.indirect_jmp_targets } } : Term IrBlk),
   r.snd)

/-- Canonicalizes the blocks of one sub in order, threading the mark set. -/
def processBlocksLoop (rmap : List RegisterProperties) (acc : List Tid) :
    List (Term IrBlk) → List (Term IrBlk) × List Tid
  | [] => ([], acc)
  | bt :: rest =>
    let r := processIrBlkTerm rmap acc bt
    let rs := processBlocksLoop rmap r.snd rest
    (r.fst :: rs.fst, rs.snd)

/-- Canonicalizes all subs of the lifted program in order, threading the mark
set across subs as the source does. -/
def processSubsLoop (rmap : List RegisterProperties) (acc : List Tid) :
    List (Term IrSub) → List (Term IrSub) × List Tid
  | [] => ([], acc)
  | st :: rest =>
    let r := processBlocksLoop rmap acc st.term.blocks
    let rs := processSubsLoop rmap r.snd rest
    (({ tid := st.tid, term := { name := st.term.name, blocks := r.fst } } : Term IrSub) :: rs.fst,
     rs.snd)

/-- Converts a project to the IR: the program is lifted, then sub-register
canonicalization runs over every lifted instruction, then the project record
is assembled. -/
def Project.into_ir_project (p : Project) (binary_base_address : Nat) : Option IrProject := do
  let progTerm ← p.program.term.into_ir_program binary_base_address
  let rmap := p.register_properties
  let r := processSubsLoop rmap [] progTerm.subs
  let spr ← p.stack_pointer_register.intoIrVariable
  pure { program := { tid := p.program.tid,
                      term := { subs := r.fst,
                                extern_symbols := progTerm.extern_symbols,
                                entry_points := progTerm.entry_points,
                                address_base_offset := progTerm.address_base_offset } },
         cpu_architecture := p.cpu_architecture,
         stack_pointer_register := spr,
         calling_conventions :=
           p.register_calling_convention.map CallingConvention.intoIrCallingConvention }

/-- The full pipeline of the module: `normalize` followed by
`into_ir_project`. -/
def fullPipeline (p : Project) (binary_base_address : Nat) :
    Option (IrProject × List LogMessage) := do
  let r ← p.normalize
  let ir ← r.fst.into_ir_project binary_base_address
  pure (ir, r.snd)

/-- Whether a sub, as the normalization pass leaves it, is well formed: its
block list is empty or some block carries the address of the sub. -/
def goodSubB (st : Term Sub) : Bool :=
  st.term.blocks.isEmpty || st.term.blocks.any (fun b => b.tid.address == st.tid.address)

/-- The entry-block invariant for one lifted sub: the block list is empty or
the first block carries the address of the sub. -/
def subEntryOkB (st : Term IrSub) : Bool :=
  match st.term.blocks with
  | [] => true
  | b :: _ => decide (b.tid.address = st.tid.address)

/-- The entry-block invariant over a whole lifted program. -/
def entryInvariantB (prog : IrProgram) : Bool :=
  prog.subs.all subEntryOkB

/-- One operand slot free of implicit memory accesses: absent, or a varnode
with no fixed address. -/
def slotCleanB : Option Variable → Bool
  | none => true
  | some v => v.address.isNone

/-- A def whose right-hand expression has no operand slot referencing a
varnode with a fixed address. -/
def defCleanB (d : Def) : Bool :=
  slotCleanB d.rhs.input0 && slotCleanB d.rhs.input1 && slotCleanB d.rhs.input2

/-- The hint list of the first jump term whose target-hint field is present,
or the empty list; this is the declarative description of what the block
lifter extracts. -/
def firstPresentHints : List (Term Jmp) → List String
  | [] => []
  | jt :: rest =>
    match jt.term.target_hints with
    | some hints => hints
    | none => firstPresentHints rest

/-- The load def synthesized for the indirect target of one jump term when
that target carries a fixed address: identified by the jump identifier
suffixed `_load`, named from the position of the jump in the jump list. -/
def jumpLoadSpec (gps : Nat) (index : Nat) (jt : Term Jmp) : List (Term Def) :=
  match jt.term.mnemonic with
  | JmpType.BRANCHIND =>
    (match jt.term.goto with
     | some (Label.Indirect v) =>
       if v.address.isSome then
         [({ tid := jt.tid.with_id_suffix "_load",
             term := v.to_load_def ("$load_temp" ++ toString index) gps } : Term Def)]
       else []
     | _ => [])
  | JmpType.CALLIND =>
    (match jt.term.call with
     | some c =>
       (match c.target with
        | some (Label.Indirect v) =>
          if v.address.isSome then
            [({ tid := jt.tid.with_id_suffix "_load",
                term := v.to_load_def ("$load_temp" ++ toString index) gps } : Term Def)]
          else []
        | _ => [])
     | none => [])
  | _ => []

/-- All load defs synthesized for the jumps of a block, in jump order,
starting at the given position. -/
def jumpLoadsSpec (gps : Nat) : Nat → List (Term Jmp) → List (Term Def)
  | _, [] => []
  | index, jt :: rest => jumpLoadSpec gps index jt ++ jumpLoadsSpec gps (index + 1) rest

/-- The three conditions of the dead-function pass on one sub: non-empty
block list, first block address differing from the sub address, and no block
at all carrying the sub address. -/
def deadFunConditionsB (st : Term Sub) : Bool :=
  match st.term.blocks with
  | [] => false
  | b0 :: _ =>
    !(st.tid.address == b0.tid.address) &&
    st.term.blocks.all (fun b => !(b.tid.address == st.tid.address))

/-- Placeholder IR block used only as the default of `Option.getD` in the
concrete evaluations below. -/
def junkIrBlk : IrBlk := { defs := [], jmps := [], indirect_jmp_targets := [] }

/-- Placeholder IR program used only as a `getD` default. -/
def junkIrProgram : IrProgram :=
  { subs := [], extern_symbols := [], entry_points := [], address_base_offset := 0 }

/-- Placeholder IR project used only as a `getD` default. -/
def junkIrProject : IrProject :=
  { program := { tid := { id := "", address := "" }, term := junkIrProgram },
    cpu_architecture := "", stack_pointer_register := { name := "", size := 0, is_temp := false },
    calling_conventions := [] }

/-- A named register varnode used in the concrete examples. -/
def vRAX : Variable :=
  { name := some "RAX", value := none, address := none, size := 8, is_virtual := false }

/-- A second named register varnode. -/
def vRBX : Variable :=
  { name := some "RBX", value := none, address := none, size := 8, is_virtual := false }

/-- A varnode carrying a fixed memory address (an implicit load operand). -/
def vAddr : Variable :=
  { name := none, value := none, address := some "0x2000", size := 8, is_virtual := false }

/-- A second addressed varnode, used as an indirect jump target. -/
def vAddr2 : Variable :=
  { name := none, value := none, address := some "0x3000", size := 8, is_virtual := false }

/-- The stack pointer register of the concrete projects. -/
def vRSP : Variable :=
  { name := some "RSP", value := none, address := none, size := 8, is_virtual := false }

/-- A concrete return jump term. -/
def jmpRetW : Term Jmp :=
  { tid := { id := "jmp1", address := "0x1004" },
    term := { mnemonic := JmpType.RETURN, goto := some (Label.Indirect vRAX),
              call := none, condition := none, target_hints := none } }

/-- A concrete block for the pipeline example of the entry-block invariant. -/
def blkW1 : Term Blk :=
  { tid := { id := "blk1", address := "0x1000" }, term := { defs := [], jmps := [jmpRetW] } }

/-- A concrete sub whose single block carries its address. -/
def subW1 : Term Sub :=
  { tid := { id := "sub1", address := "0x1000" }, term := { name := "main", blocks := [blkW1] } }

/-- A concrete project on which the full pipeline succeeds. -/
def pW1 : Project :=
  { program := { tid := { id := "prog", address := "0x0" },
                 term := { subs := [subW1], extern_symbols := [], entry_points := [],
                           image_base := "1000" } },
    cpu_architecture := "x86_64", stack_pointer_register := vRSP,
    register_properties := [], register_calling_convention := [] }

/-- The result of the full pipeline on the concrete project. -/
def pairW1 : IrProject × List LogMessage := (fullPipeline pW1 0).getD (junkIrProject, [])

/-- A concrete sub meeting the dead-function conditions. -/
def subDeadW : Term Sub :=
  { tid := { id := "subD", address := "0x3000" },
    term := { name := "dead_fun",
              blocks := [{ tid := { id := "blkD", address := "0x3100" },
                           term := { defs := [], jmps := [] } }] } }

/-- A concrete project containing a dead function and a well-formed one, used
for the normalization example. -/
def pW2 : Project :=
  { program := { tid := { id := "prog2", address := "0x0" },
                 term := { subs := [subDeadW, subW1], extern_symbols := [], entry_points := [],
                           image_base := "1000" } },
    cpu_architecture := "x86_64", stack_pointer_register := vRSP,
    register_properties := [], register_calling_convention := [] }

/-- The result of normalization on the concrete project. -/
def pairW2 : Project × List LogMessage := (Project.normalize pW2).getD (pW2, [])

/-- A concrete def with an implicit memory access in its second operand
slot. -/
def defImpW : Term Def :=
  { tid := { id := "d2", address := "0x30" },
    term := { lhs := some vRAX,
              rhs := { mnemonic := ExpressionType.INT_ADD, input0 := some vRBX,
                       input1 := some vAddr, input2 := none } } }

/-- A concrete block for the implicit-load elimination example. -/
def blkW3 : Blk := { defs := [defImpW], jmps := [] }

/-- The block after the implicit-load materialization pass. -/
def blkW3r : Blk :=
  (blkW3.add_load_defs_for_implicit_ram_access 8).getD { defs := [], jmps := [] }

/-- A concrete indirect branch whose target carries a fixed address. -/
def jmpBIndW : Term Jmp :=
  { tid := { id := "j4", address := "0x40" },
    term := { mnemonic := JmpType.BRANCHIND, goto := some (Label.Indirect vAddr2),
              call := none, condition := none, target_hints := none } }

/-- A concrete block for the implicit-load placement example: one def with an
addressed operand and one indirect jump with an addressed target. -/
def blkW4 : Blk := { defs := [defImpW], jmps := [jmpBIndW] }

/-- The block after the implicit-load materialization pass. -/
def blkW4r : Blk :=
  (blkW4.add_load_defs_for_implicit_ram_access 8).getD { defs := [], jmps := [] }

/-- A concrete program whose image base carries a `0x` prefix, as written in
the claim. -/
def progC5x : Program :=
  { subs := [], extern_symbols := [], entry_points := [], image_base := "0x1000" }

/-- A concrete program with the prefix-free image base `1000`. -/
def progC5a : Program :=
  { subs := [], extern_symbols := [], entry_points := [], image_base := "1000" }

/-- A concrete program with the prefix-free image base `401000`. -/
def progC5b : Program :=
  { subs := [], extern_symbols := [], entry_points := [], image_base := "401000" }

/-- The lifted program of the first image-base example. -/
def irC5a : IrProgram := (progC5a.into_ir_program 0).getD junkIrProgram

/-- A return jump carrying a present but empty hint list. -/
def jmpHintsEmptyW : Term Jmp :=
  { tid := { id := "j1", address := "0x10" },
    term := { mnemonic := JmpType.RETURN, goto := some (Label.Indirect vRAX),
              call := none, condition := none, target_hints := some [] } }

/-- A return jump carrying the hint list `0x42`. -/
def jmpHints42W : Term Jmp :=
  { tid := { id := "j2", address := "0x14" },
    term := { mnemonic := JmpType.RETURN, goto := some (Label.Indirect vRAX),
              call := none, condition := none, target_hints := some ["0x42"] } }

/-- The block of the hint-extraction counterexample: the first jump carries a
present empty hint list, the second a non-empty one. -/
def blkC6 : Blk := { defs := [], jmps := [jmpHintsEmptyW, jmpHints42W] }

/-- A block whose only jump carries a non-empty hint list, for the amended
hint-extraction example. -/
def blkC6W : Blk := { defs := [], jmps := [jmpHints42W] }

/-- The lifted block of the amended hint-extraction example. -/
def irblkC6W : IrBlk := (Blk.intoIrBlk blkC6W).getD junkIrBlk

/-- A `CALL` jump with no call descriptor. -/
def jmpC7call : Jmp :=
  { mnemonic := JmpType.CALL, goto := none, call := none, condition := none,
    target_hints := none }

/-- A `BRANCH` jump whose goto label is indirect. -/
def jmpC7branch : Jmp :=
  { mnemonic := JmpType.BRANCH, goto := some (Label.Indirect vRAX), call := none,
    condition := none, target_hints := none }

/-- A named register varnode for the argument examples. -/
def vRDI : Variable :=
  { name := some "RDI", value := none, address := none, size := 8, is_virtual := false }

/-- A stack-location expression: a `LOAD` whose first operand carries a
constant address. -/
def exprStackLocW : Expression :=
  { mnemonic := ExpressionType.LOAD,
    input0 := some { name := none, value := none, address := some "0x8", size := 8,
                     is_virtual := false },
    input1 := none, input2 := none }

/-- An argument with both operand fields set. -/
def argC8both : Arg := { var := some vRDI, location := some exprStackLocW, intent := ArgIntent.INPUT }

/-- An argument with neither operand field set. -/
def argC8none : Arg := { var := none, location := none, intent := ArgIntent.INPUT }

/-- An argument with only the register field set. -/
def argC8reg : Arg := { var := some vRDI, location := none, intent := ArgIntent.OUTPUT }

/-- A well-formed sub for the dead-function example: its single block carries
its address. -/
def subOkW : Term Sub :=
  { tid := { id := "subY", address := "0x6000" },
    term := { name := "ok_fun",
              blocks := [{ tid := { id := "blkY", address := "0x6000" },
                           term := { defs := [], jmps := [] } }] } }

/-- A concrete def lifted through the default branch of the def conversion. -/
def defCopyW : Term Def :=
  { tid := { id := "d1", address := "0x20" },
    term := { lhs := some vRAX,
              rhs := { mnemonic := ExpressionType.COPY, input0 := some vRBX,
                       input1 := none, input2 := none } } }

/-- A concrete block for the structure-preservation example. -/
def blkW10 : Blk := { defs := [defCopyW], jmps := [jmpRetW] }

/-- The lifted block of the structure-preservation example. -/
def irblkW10 : IrBlk := (Blk.intoIrBlk blkW10).getD junkIrBlk

theorem optBind_eq_some {α β : Type} {o : Option α} {f : α → Option β} {b : β} :
    (o >>= f) = some b ↔ ∃ a, o = some a ∧ f a = some b := by
  cases o <;> simp [Bind.bind, Option.bind]

theorem mapOpt_cons_inv {α β : Type} {f : α → Option β} {a : α} {as : List α} {l' : List β}
    (h : mapOpt f (a :: as) = some l') :
    ∃ b bs, f a = some b ∧ mapOpt f as = some bs ∧ l' = b :: bs := by
  simp only [mapOpt, optBind_eq_some, Option.pure_def, Option.some_inj] at h
  obtain ⟨b, hb, bs, hbs, hl⟩ := h
  exact ⟨b, bs, hb, hbs, hl.symm⟩

theorem mapOpt_map_eq {α β γ : Type} {f : α → Option β} (g : β → γ) (k : α → γ)
    (hfg : ∀ x y, f x = some y → g y = k x) :
    ∀ l l', mapOpt f l = some l' → l'.map g = l.map k := by
  intro l
  induction l with
  | nil =>
    intro l' hl
    simp only [mapOpt, Option.some_inj] at hl
    subst hl
    rfl
  | cons a as ih =>
    intro l' hl
    obtain ⟨b, bs, hb, hbs, hl'⟩ := mapOpt_cons_inv hl
    subst hl'
    simp only [List.map_cons]
    exact congrArg₂ (fun x xs => x :: xs) (hfg a b hb) (ih bs hbs)

theorem mapOpt_mem {α β : Type} {f : α → Option β} :
    ∀ {l : List α} {l' : List β}, mapOpt f l = some l' →
    ∀ y ∈ l', ∃ x ∈ l, f x = some y := by
  intro l
  induction l with
  | nil =>
    intro l' hl y hy
    simp only [mapOpt, Option.some_inj] at hl
    subst hl
    simp at hy
  | cons a as ih =>
    intro l' hl y hy
    obtain ⟨b, bs, hb, hbs, hl'⟩ := mapOpt_cons_inv hl
    subst hl'
    rcases List.mem_cons.mp hy with hy | hy
    · exact ⟨a, List.mem_cons_self a as, hy ▸ hb⟩
    · obtain ⟨x, hx, hfx⟩ := ih hbs y hy
      exact ⟨x, List.mem_cons_of_mem a hx, hfx⟩

theorem findSome?_hints_eq (l : List (Term Jmp)) :
    ((l.findSome? (fun jt => jt.term.target_hints)).getD []) = firstPresentHints l := by
  induction l with
  | nil => rfl
  | cons jt rest ih =>
    cases h : jt.term.target_hints with
    | some hints => simp [List.findSome?_cons, h, firstPresentHints]
    | none => simp [List.findSome?_cons, h, firstPresentHints, ih]

theorem find?_isNone_iff_all {α : Type} {p : α → Bool} (l : List α) :
    ((l.find? p).isNone = true) ↔ (l.all (fun x => !(p x)) = true) := by
  induction l with
  | nil => simp [List.find?]
  | cons a as ih => cases hpa : p a <;> simp [List.find?, hpa, ih]

/-- Claim C10: converting a block to the IR preserves the number and order of
its defs and jumps, and every lifted def and jump term keeps the identifier
of the P-Code term it was lifted from. -/
theorem c10_blk_structure (blk : Blk) (irblk : IrBlk)
    (h : Blk.intoIrBlk blk = some irblk) :
    irblk.defs.map Term.tid = blk.defs.map Term.tid ∧
    irblk.jmps.map Term.tid = blk.jmps.map Term.tid ∧
    irblk.defs.length = blk.defs.length ∧
    irblk.jmps.length = blk.jmps.length := by
  simp only [Blk.intoIrBlk, optBind_eq_some, Option.pure_def, Option.some_inj] at h
  obtain ⟨defs, hdefs, jmps, hjmps, hblk⟩ := h
  subst hblk
  have hd : defs.map Term.tid = blk.defs.map Term.tid := by
    refine mapOpt_map_eq Term.tid Term.tid ?_ _ _ hdefs
    intro x y hxy
    obtain ⟨d, _, hy⟩ := Option.map_eq_some'.mp hxy
    subst hy
    rfl
  have hj : jmps.map Term.tid = blk.jmps.map Term.tid := by
    refine mapOpt_map_eq Term.tid Term.tid ?_ _ _ hjmps
    intro x y hxy
    obtain ⟨j, _, hy⟩ := Option.map_eq_some'.mp hxy
    subst hy
    rfl
  refine ⟨hd, hj, ?_, ?_⟩
  · have := congrArg List.length hd
    simpa using this
  · have := congrArg List.length hj
    simpa using this

/-- Witness for C10 at a concrete block. -/
theorem c10_witness :
    irblkW10.defs.map Term.tid = blkW10.defs.map Term.tid ∧
    irblkW10.jmps.map Term.tid = blkW10.jmps.map Term.tid ∧
    irblkW10.defs.length = blkW10.defs.length ∧
    irblkW10.jmps.length = blkW10.jmps.length :=
  c10_blk_structure blkW10 irblkW10 rfl

/-- Counterexample for claim C6: in a block whose first jump carries a
present but empty hint list and whose second jump carries the non-empty list
`0x42`, the lifter yields the empty hint list, not `0x42` as the claim (first
jump with a non-empty list supplies the hints) requires. -/
theorem c6_counterexample :
    (Blk.intoIrBlk blkC6).map IrBlk.indirect_jmp_targets = some [] ∧
    (Blk.intoIrBlk blkC6).map IrBlk.indirect_jmp_targets ≠ some ["0x42"] := by
  constructor
  · decide
  · decide

/-- Claim C6 (amended): the hint list of the lifted block is the hint list of
the first jump term whose target-hint field is present, even when that list
is empty; if no jump carries the field, the hint list is empty. -/
theorem c6_amended (blk : Blk) (irblk : IrBlk) (h : Blk.intoIrBlk blk = some irblk) :
    irblk.indirect_jmp_targets = firstPresentHints blk.jmps := by
  simp only [Blk.intoIrBlk, optBind_eq_some, Option.pure_def, Option.some_inj] at h
  obtain ⟨defs, _, jmps, _, hblk⟩ := h
  subst hblk
  exact findSome?_hints_eq blk.jmps

/-- Witness for the amended C6 at a concrete block. -/
theorem c6_witness : irblkC6W.indirect_jmp_targets = firstPresentHints blkC6W.jmps :=
  c6_amended blkC6W irblkC6W rfl

/-- Claim C7: converting a jump fails whenever the mnemonic and the supplied
fields mismatch; in particular a `CALL` with no call descriptor and a
`BRANCH` with an indirect goto label both abort the conversion. -/
theorem c7_fatal_jumps (jmp : Jmp) :
    (jmp.mnemonic = JmpType.CALL → jmp.call = none → Jmp.intoIrJmp jmp = none) ∧
    (∀ v, jmp.mnemonic = JmpType.BRANCH → jmp.goto = some (Label.Indirect v) →
      Jmp.intoIrJmp jmp = none) := by
  constructor
  · intro hm hc
    simp [Jmp.intoIrJmp, hm, hc]
  · intro v hm hg
    simp [Jmp.intoIrJmp, hm, hg, unwrap_label_direct]

/-- Witness for C7 at concrete jumps. -/
theorem c7_witness : Jmp.intoIrJmp jmpC7call = none ∧ Jmp.intoIrJmp jmpC7branch = none :=
  ⟨(c7_fatal_jumps jmpC7call).1 rfl rfl, (c7_fatal_jumps jmpC7branch).2 vRAX rfl rfl⟩

/-- Counterexample for claim C8: an argument with both operand fields set
converts successfully (the register field takes the first branch), it does
not fail as the claim requires. -/
theorem c8_counterexample :
    Arg.intoIrArg argC8both =
      some (IrArg.Register { name := "RDI", size := 8, is_temp := false }) ∧
    Arg.intoIrArg argC8both ≠ none := by
  constructor
  · decide
  · decide

/-- Claim C8 (amended): converting an argument fails when neither operand
field is present; when the register field is present it takes precedence and
the argument lifts as a register argument regardless of the location field. -/
theorem c8_amended (arg : Arg) :
    (arg.var = none → arg.location = none → Arg.intoIrArg arg = none) ∧
    (∀ v, arg.var = some v →
      Arg.intoIrArg arg = (Variable.intoIrVariable v).map IrArg.Register) := by
  constructor
  · intro hv hl
    simp [Arg.intoIrArg, hv, hl]
  · intro v hv
    simp [Arg.intoIrArg, hv]

/-- Witness for the amended C8 at concrete arguments. -/
theorem c8_witness :
    Arg.intoIrArg argC8none = none ∧
    Arg.intoIrArg argC8reg = (Variable.intoIrVariable vRDI).map IrArg.Register :=
  ⟨(c8_amended argC8none).1 rfl rfl, (c8_amended argC8reg).2 vRDI rfl⟩

/-- Counterexample for claim C5: with the image base written `0x1000` as in
the claim, the radix-16 parser of the source rejects the `x` character and
the conversion aborts; the offset `0x1000` is not produced. -/
theorem c5_counterexample :
    Program.into_ir_program progC5x 0 = none ∧
    (Program.into_ir_program progC5x 0).map IrProgram.address_base_offset ≠ some 4096 := by
  constructor
  · decide
  · decide

/-- Claim C5 (amended): the address base offset is the radix-16 parse of the
image base string (which must carry no `0x` prefix) minus the caller-supplied
binary base address; for image base `1000` and base 0 the offset is 0x1000,
and for image base `401000` and base 0x400000 the offset is 0x1000. -/
theorem c5_amended :
    (∀ p base ir, Program.into_ir_program p base = some ir →
      u64_from_str_radix_16 p.image_base = some (ir.address_base_offset + base)) ∧
    (Program.into_ir_program progC5a 0).map IrProgram.address_base_offset = some 4096 ∧
    (Program.into_ir_program progC5b 4194304).map IrProgram.address_base_offset = some 4096 := by
  refine ⟨?_, by decide, by decide⟩
  intro p base ir h
  simp only [Program.into_ir_program, optBind_eq_some, Option.pure_def,
    Option.some_inj] at h
  obtain ⟨subs, _, ext, _, parsed, hp, off, hoff, hir⟩ := h
  subst hir
  simp only [checkedSub] at hoff
  split at hoff
  · rename_i hle
    rw [hp]
    simp only [Option.some_inj] at hoff
    subst hoff
    simp only [Option.some_inj]
    omega
  · simp at hoff

/-- Witness for the amended C5, applying the general offset equation at a
concrete program. -/
theorem c5_witness :
    u64_from_str_radix_16 progC5a.image_base = some (irC5a.address_base_offset + 0) :=
  c5_amended.1 progC5a 0 irC5a rfl

/-- Claim C9: a sub with a non-empty block list whose first block address
differs from the sub address and none of whose blocks carries the sub address
is replaced by an empty-block stub together with exactly one warning-level
log message naming the function and its identifier; a sub not meeting all
three conditions is left unchanged by this pass and produces no message. -/
theorem c9_dead_function (st : Term Sub) :
    (deadFunConditionsB st = true →
      normalizeSub st =
        ({ tid := st.tid, term := { name := st.term.name, blocks := [] } },
         [{ level := LogLevel.Warning,
            text := "Starting block of function " ++ st.term.name ++ " (" ++
              st.tid.id ++ ") not found." }])) ∧
    (deadFunConditionsB st = false → normalizeSub st = (st, [])) := by
  rcases hb : st.term.blocks with _ | ⟨b0, tl⟩
  · constructor
    · intro hd
      simp [deadFunConditionsB, hb] at hd
    · intro _
      simp [normalizeSub, hb]
  · have hiff : deadFunConditionsB st = true ↔
        (st.tid.address ≠ b0.tid.address ∧
         (List.find? (fun block => decide (block.tid.address = st.tid.address))
            (b0 :: tl)).isNone = true) := by
      rw [find?_isNone_iff_all]
      simp only [deadFunConditionsB, hb, Bool.and_eq_true, Bool.not_eq_true',
        beq_eq_false_iff_ne, List.all_eq_true, decide_eq_false_iff_not, ne_eq]
    constructor
    · intro hd
      simp only [normalizeSub, hb]
      rw [if_pos (hiff.mp hd)]
      simp [LogMessage.new_error]
    · intro hd
      simp only [normalizeSub, hb]
      have hnc : ¬ (st.tid.address ≠ b0.tid.address ∧
          (List.find? (fun block => decide (block.tid.address = st.tid.address))
             (b0 :: tl)).isNone = true) := by
        intro hc
        rw [hiff.mpr hc] at hd
        simp at hd
      rw [if_neg hnc]

/-- Witness for C9 at a concrete dead function and a concrete well-formed
function. -/
theorem c9_witness :
    normalizeSub subDeadW =
      ({ tid := subDeadW.tid, term := { name := subDeadW.term.name, blocks := [] } },
       [{ level := LogLevel.Warning,
          text := "Starting block of function " ++ subDeadW.term.name ++ " (" ++
            subDeadW.tid.id ++ ") not found." }]) ∧
    normalizeSub subOkW = (subOkW, []) :=
  ⟨(c9_dead_function subDeadW).1 rfl, (c9_dead_function subOkW).2 rfl⟩

theorem slotLoad_some_inv {gps : Nat} {slot : Option Variable} {n : String} {d : Def}
    (h : slotLoad gps slot n = some d) :
    ∃ v, slot = some v ∧ v.address.isSome = true ∧ d = v.to_load_def n gps := by
  cases slot with
  | none => simp [slotLoad] at h
  | some v =>
    simp only [slotLoad] at h
    split at h
    · rename_i haddr
      simp only [Option.some_inj] at h
      exact ⟨v, rfl, haddr, h.symm⟩
    · simp at h

theorem to_load_def_clean (v : Variable) (n : String) (gps : Nat) :
    defCleanB (v.to_load_def n gps) = true := rfl

theorem to_load_def_mnemonic (v : Variable) (n : String) (gps : Nat) :
    (v.to_load_def n gps).rhs.mnemonic = ExpressionType.LOAD := rfl

theorem slotLoadTerms_mem {gps : Nat} {slot : Option Variable} {n : String} {tag : Tid}
    {ld : Term Def} (h : ld ∈ slotLoadTerms gps slot n tag) :
    ld.tid = tag ∧ ∃ v, slot = some v ∧ v.address.isSome = true ∧
      ld.term = v.to_load_def n gps := by
  simp only [slotLoadTerms] at h
  split at h
  · rename_i d hd
    simp only [List.mem_singleton] at h
    subst h
    obtain ⟨v, hv, haddr, hdv⟩ := slotLoad_some_inv hd
    exact ⟨rfl, v, hv, haddr, hdv⟩
  · simp at h

theorem loadTermsOf_mem {gps : Nat} {dt ld : Term Def} (h : ld ∈ loadTermsOf gps dt) :
    defCleanB ld.term = true ∧ ld.term.rhs.mnemonic = ExpressionType.LOAD ∧
    (ld.tid = dt.tid.with_id_suffix "_load0" ∨ ld.tid = dt.tid.with_id_suffix "_load1" ∨
     ld.tid = dt.tid.with_id_suffix "_load2") := by
  simp only [loadTermsOf, List.mem_append] at h
  rcases h with (h | h) | h
  · obtain ⟨htid, v, _, _, hterm⟩ := slotLoadTerms_mem h
    exact ⟨hterm ▸ to_load_def_clean v _ gps, hterm ▸ to_load_def_mnemonic v _ gps,
      Or.inl htid⟩
  · obtain ⟨htid, v, _, _, hterm⟩ := slotLoadTerms_mem h
    exact ⟨hterm ▸ to_load_def_clean v _ gps, hterm ▸ to_load_def_mnemonic v _ gps,
      Or.inr (Or.inl htid)⟩
  · obtain ⟨htid, v, _, _, hterm⟩ := slotLoadTerms_mem h
    exact ⟨hterm ▸ to_load_def_clean v _ gps, hterm ▸ to_load_def_mnemonic v _ gps,
      Or.inr (Or.inr htid)⟩

theorem slotCleanB_cleanedSlot (gps : Nat) (slot : Option Variable) (n : String) :
    slotCleanB (cleanedSlot gps slot n) = true := by
  cases hs : slotLoad gps slot n with
  | some d =>
    obtain ⟨v, hv, haddr, hd⟩ := slotLoad_some_inv hs
    simp [cleanedSlot, hs, hd, Variable.to_load_def, slotCleanB]
  | none =>
    cases slot with
    | none => simp [cleanedSlot, hs, slotCleanB]
    | some v =>
      simp only [cleanedSlot, hs]
      simp only [slotLoad] at hs
      split at hs
      · simp at hs
      · rename_i hna
        simp only [slotCleanB]
        cases haddr : v.address with
        | none => rfl
        | some a => rw [haddr] at hna; simp at hna

theorem cleanedTermOf_clean (gps : Nat) (dt : Term Def) :
    defCleanB (cleanedTermOf gps dt).term = true := by
  simp [defCleanB, cleanedTermOf, slotCleanB_cleanedSlot]

theorem refactorOneDef_clean (gps : Nat) (dt : Term Def) :
    ∀ ld ∈ refactorOneDef gps dt, defCleanB ld.term = true := by
  intro ld h
  simp only [refactorOneDef, List.mem_append, List.mem_singleton] at h
  rcases h with h | h
  · exact (loadTermsOf_mem h).1
  · subst h
    exact cleanedTermOf_clean gps dt

theorem refactorDefsLoop_eq_flatten (gps : Nat) :
    ∀ l : List (Term Def), refactorDefsLoop gps l = (l.map (refactorOneDef gps)).flatten := by
  intro l
  induction l with
  | nil => rfl
  | cons dt rest ih => simp [refactorDefsLoop, ih]

theorem refactorDefsLoop_clean (gps : Nat) :
    ∀ l : List (Term Def), ∀ ld ∈ refactorDefsLoop gps l, defCleanB ld.term = true := by
  intro l
  induction l with
  | nil => intro ld h; simp [refactorDefsLoop] at h
  | cons dt rest ih =>
    intro ld h
    simp only [refactorDefsLoop, List.mem_append] at h
    rcases h with h | h
    · exact refactorOneDef_clean gps dt ld h
    · exact ih ld h

theorem jumpLoadSpec_mem {gps i : Nat} {jt : Term Jmp} {ld : Term Def}
    (h : ld ∈ jumpLoadSpec gps i jt) :
    defCleanB ld.term = true ∧ ld.term.rhs.mnemonic = ExpressionType.LOAD ∧
    ld.tid = jt.tid.with_id_suffix "_load" := by
  simp only [jumpLoadSpec] at h
  split at h
  · split at h
    · rename_i v heq
      split at h
      · simp only [List.mem_singleton] at h
        subst h
        exact ⟨to_load_def_clean v _ gps, to_load_def_mnemonic v _ gps, rfl⟩
      · simp at h
    · simp at h
  · split at h
    · rename_i c heq
      split at h
      · rename_i v heq2
        split at h
        · simp only [List.mem_singleton] at h
          subst h
          exact ⟨to_load_def_clean v _ gps, to_load_def_mnemonic v _ gps, rfl⟩
        · simp at h
      · simp at h
    · simp at h
  · simp at h

theorem jumpLoadsSpec_mem {gps : Nat} :
    ∀ (i : Nat) (jmps : List (Term Jmp)), ∀ ld ∈ jumpLoadsSpec gps i jmps,
    defCleanB ld.term = true ∧ ld.term.rhs.mnemonic = ExpressionType.LOAD ∧
    ∃ jt ∈ jmps, ld.tid = jt.tid.with_id_suffix "_load" := by
  intro i jmps
  induction jmps generalizing i with
  | nil => intro ld h; simp [jumpLoadsSpec] at h
  | cons jt rest ih =>
    intro ld h
    simp only [jumpLoadsSpec, List.mem_append] at h
    rcases h with h | h
    · obtain ⟨h1, h2, h3⟩ := jumpLoadSpec_mem h
      exact ⟨h1, h2, jt, List.mem_cons_self jt rest, h3⟩
    · obtain ⟨h1, h2, jt', hjt', h3⟩ := ih (i + 1) ld h
      exact ⟨h1, h2, jt', List.mem_cons_of_mem jt hjt', h3⟩

theorem refactorOneJmp_snd {gps i : Nat} {jt : Term Jmp}
    {r : Term Jmp × List (Term Def)} (h : refactorOneJmp gps i jt = some r) :
    r.snd = jumpLoadSpec gps i jt := by
  cases hm : jt.term.mnemonic <;>
    simp only [refactorOneJmp, hm, Option.some_inj, jumpLoadSpec] at h ⊢
  case BRANCHIND =>
    cases hg : jt.term.goto with
    | none => simp [hg] at h
    | some l =>
      cases l with
      | Direct tid => simp [hg, unwrap_label_indirect] at h
      | Indirect v =>
        cases haddr : v.address with
        | none =>
          simp [hg, unwrap_label_indirect, haddr] at h
          rw [← h]
          simp [hg, haddr]
        | some a =>
          simp [hg, unwrap_label_indirect, haddr, Variable.to_load_def] at h
          rw [← h]
          simp [hg, haddr, Variable.to_load_def]
  case CALLIND =>
    cases hc : jt.term.call with
    | none => simp [hc] at h
    | some c =>
      cases ht : c.target with
      | none => simp [hc, ht] at h
      | some l =>
        cases l with
        | Direct tid => simp [hc, ht, unwrap_label_indirect] at h
        | Indirect v =>
          cases haddr : v.address with
          | none =>
            simp [hc, ht, unwrap_label_indirect, haddr] at h
            rw [← h]
            simp [hc, ht, haddr]
          | some a =>
            simp [hc, ht, unwrap_label_indirect, haddr, Variable.to_load_def] at h
            rw [← h]
            simp [hc, ht, haddr, Variable.to_load_def]
  all_goals (simp only [Option.pure_def, Option.some_inj] at h; rw [← h])

theorem refactorJmpsLoop_snd {gps : Nat} :
    ∀ (i : Nat) (jmps : List (Term Jmp)) (r : List (Term Jmp) × List (Term Def)),
    refactorJmpsLoop gps i jmps = some r → r.snd = jumpLoadsSpec gps i jmps := by
  intro i jmps
  induction jmps generalizing i with
  | nil =>
    intro r h
    simp only [refactorJmpsLoop, Option.some_inj] at h
    rw [← h]
    rfl
  | cons jt rest ih =>
    intro r h
    simp only [refactorJmpsLoop, optBind_eq_some, Option.pure_def, Option.some_inj] at h
    obtain ⟨r1, hr1, rs, hrs, hr⟩ := h
    rw [← hr]
    simp only [jumpLoadsSpec]
    rw [refactorOneJmp_snd hr1, ih (i + 1) rs hrs]

theorem flatten_mem_decomp {α β : Type} {f : α → List β} {l : List α} {dt : α}
    (h : dt ∈ l) (extra : List β) :
    ∃ pre post, (l.map f).flatten ++ extra = pre ++ f dt ++ post := by
  induction h with
  | head as => exact ⟨[], (as.map f).flatten ++ extra, by simp⟩
  | tail b hmem ih =>
    obtain ⟨pre, post, hpp⟩ := ih
    refine ⟨f b ++ pre, post, ?_⟩
    simp only [List.map_cons, List.flatten_cons, List.append_assoc] at hpp ⊢
    rw [hpp]

/-- Claim C3: after the implicit-load materialization pass, no surviving def
has an operand slot referencing a varnode with a fixed address, and every
def of the input occurs in the output as its group of synthesized loads
immediately followed by its cleaned form (each addressed slot replaced by the
fresh temporary fed by its load). -/
theorem c3_implicit_load_elimination (blk : Blk) (gps : Nat) (blk' : Blk)
    (h : blk.add_load_defs_for_implicit_ram_access gps = some blk') :
    (blk'.defs.all (fun dt => defCleanB dt.term) = true) ∧
    (∀ dt ∈ blk.defs, ∃ pre post, blk'.defs = pre ++ refactorOneDef gps dt ++ post) := by
  simp only [Blk.add_load_defs_for_implicit_ram_access, optBind_eq_some, Option.pure_def,
    Option.some_inj] at h
  obtain ⟨r, hr, hblk⟩ := h
  rw [← hblk]
  constructor
  · rw [List.all_append, Bool.and_eq_true]
    constructor
    · rw [List.all_eq_true]
      intro ld hld
      exact refactorDefsLoop_clean gps blk.defs ld hld
    · rw [List.all_eq_true]
      intro ld hld
      rw [refactorJmpsLoop_snd 0 blk.jmps r hr] at hld
      exact (jumpLoadsSpec_mem 0 blk.jmps ld hld).1
  · intro dt hdt
    rw [refactorDefsLoop_eq_flatten]
    exact flatten_mem_decomp hdt r.snd

/-- Witness for C3 at a concrete block with an addressed operand slot. -/
theorem c3_witness :
    (blkW3r.defs.all (fun dt => defCleanB dt.term) = true) ∧
    (∀ dt ∈ blkW3.defs, ∃ pre post, blkW3r.defs = pre ++ refactorOneDef 8 dt ++ post) :=
  c3_implicit_load_elimination blkW3 8 blkW3r rfl

/-- Claim C4: the def list produced by the implicit-load materialization pass
is exactly the concatenation, in original def order, of each def's
synthesized loads followed by its cleaned def (which keeps the original
identifier and is hence placed immediately after its loads), followed by the
loads synthesized for the indirect jump targets, appended at the end in jump
order and identified by the jump identifier suffixed with the `_load` tag;
the loads of a def carry its identifier suffixed with the operand-slot tag. -/
theorem c4_load_placement (blk : Blk) (gps : Nat) (blk' : Blk)
    (h : blk.add_load_defs_for_implicit_ram_access gps = some blk') :
    blk'.defs = (blk.defs.map (refactorOneDef gps)).flatten ++ jumpLoadsSpec gps 0 blk.jmps ∧
    (∀ dt : Term Def, refactorOneDef gps dt = loadTermsOf gps dt ++ [cleanedTermOf gps dt] ∧
      (cleanedTermOf gps dt).tid = dt.tid) ∧
    (∀ dt : Term Def, ∀ ld ∈ loadTermsOf gps dt,
      ld.term.rhs.mnemonic = ExpressionType.LOAD ∧
      (ld.tid = dt.tid.with_id_suffix "_load0" ∨ ld.tid = dt.tid.with_id_suffix "_load1" ∨
       ld.tid = dt.tid.with_id_suffix "_load2")) ∧
    (∀ ld ∈ jumpLoadsSpec gps 0 blk.jmps,
      ld.term.rhs.mnemonic = ExpressionType.LOAD ∧
      ∃ jt ∈ blk.jmps, ld.tid = jt.tid.with_id_suffix "_load") := by
  simp only [Blk.add_load_defs_for_implicit_ram_access, optBind_eq_some, Option.pure_def,
    Option.some_inj] at h
  obtain ⟨r, hr, hblk⟩ := h
  refine ⟨?_, ?_, ?_, ?_⟩
  · rw [← hblk]
    rw [refactorDefsLoop_eq_flatten, refactorJmpsLoop_snd 0 blk.jmps r hr]
  · intro dt
    exact ⟨rfl, rfl⟩
  · intro dt ld hld
    exact ⟨(loadTermsOf_mem hld).2.1, (loadTermsOf_mem hld).2.2⟩
  · intro ld hld
    exact ⟨(jumpLoadsSpec_mem 0 blk.jmps ld hld).2.1, (jumpLoadsSpec_mem 0 blk.jmps ld hld).2.2⟩

/-- Witness for C4 at a concrete block with an addressed def operand and an
addressed indirect jump target. -/
theorem c4_witness :
    blkW4r.defs = (blkW4.defs.map (refactorOneDef 8)).flatten ++ jumpLoadsSpec 8 0 blkW4.jmps ∧
    (∀ dt : Term Def, refactorOneDef 8 dt = loadTermsOf 8 dt ++ [cleanedTermOf 8 dt] ∧
      (cleanedTermOf 8 dt).tid = dt.tid) ∧
    (∀ dt : Term Def, ∀ ld ∈ loadTermsOf 8 dt,
      ld.term.rhs.mnemonic = ExpressionType.LOAD ∧
      (ld.tid = dt.tid.with_id_suffix "_load0" ∨ ld.tid = dt.tid.with_id_suffix "_load1" ∨
       ld.tid = dt.tid.with_id_suffix "_load2")) ∧
    (∀ ld ∈ jumpLoadsSpec 8 0 blkW4.jmps,
      ld.term.rhs.mnemonic = ExpressionType.LOAD ∧
      ∃ jt ∈ blkW4.jmps, ld.tid = jt.tid.with_id_suffix "_load") :=
  c4_load_placement blkW4 8 blkW4r rfl

theorem findStartIdx_some {addr : String} :
    ∀ {l : List (Term Blk)} {i : Nat}, findStartIdx addr l = some i →
    ∃ h : i < l.length, (l.get ⟨i, h⟩).tid.address = addr := by
  intro l
  induction l with
  | nil => intro i h; simp [findStartIdx] at h
  | cons b rest ih =>
    intro i h
    simp only [findStartIdx] at h
    split at h
    · rename_i heq
      simp only [Option.some_inj] at h
      subst h
      exact ⟨Nat.succ_pos _, heq⟩
    · obtain ⟨j, hj, hi⟩ := Option.map_eq_some'.mp h
      obtain ⟨hjl, hget⟩ := ih hj
      subst hi
      exact ⟨Nat.succ_lt_succ hjl, hget⟩

theorem findStartIdx_isSome {addr : String} :
    ∀ {l : List (Term Blk)}, (∃ b ∈ l, b.tid.address = addr) →
    (findStartIdx addr l).isSome = true := by
  intro l
  induction l with
  | nil => rintro ⟨b, hb, _⟩; simp at hb
  | cons b0 rest ih =>
    rintro ⟨b, hb, haddr⟩
    simp only [findStartIdx]
    split
    · rfl
    · rename_i hne
      rcases List.mem_cons.mp hb with rfl | hb'
      · exact absurd haddr hne
      · rw [Option.isSome_map']
        exact ih ⟨b, hb', haddr⟩

theorem listSwap_zero_head {α : Type} (b0 : α) (tl : List α) (i : Nat)
    (hi : i < (b0 :: tl).length) :
    ∃ rest, listSwap (b0 :: tl) 0 i = (b0 :: tl).get ⟨i, hi⟩ :: rest := by
  cases i with
  | zero =>
    refine ⟨tl, ?_⟩
    simp [listSwap]
  | succ k =>
    have hk : k < tl.length := Nat.lt_of_succ_lt_succ hi
    refine ⟨tl.set k b0, ?_⟩
    simp only [listSwap]
    rw [show ((b0 :: tl).get? 0) = some b0 from rfl]
    rw [show ((b0 :: tl).get? (k + 1)) = tl.get? k from rfl]
    rw [List.get?_eq_get hk]
    rfl

theorem entryRepair_good {sub : Term Sub} {blocks : List (Term Blk)}
    (h : entryRepair sub = some blocks) :
    blocks = [] ∨ ∃ b rest, blocks = b :: rest ∧ b.tid.address = sub.tid.address := by
  rcases hb : sub.term.blocks with _ | ⟨b0, tl⟩
  · left
    simp only [entryRepair, hb] at h
    simp only [Option.some_inj] at h
    exact h.symm
  · simp only [entryRepair, hb] at h
    split at h
    · rename_i heq
      simp only [Option.some_inj] at h
      right
      exact ⟨b0, tl, h.symm, heq.symm⟩
    · split at h
      · rename_i i hfind
        simp only [Option.some_inj] at h
        right
        obtain ⟨hil, hget⟩ := findStartIdx_some hfind
        obtain ⟨rest, hswap⟩ := listSwap_zero_head b0 tl i hil
        refine ⟨(b0 :: tl).get ⟨i, hil⟩, rest, ?_, hget⟩
        rw [← h]
        exact hswap
      · simp at h

theorem goodSub_entryRepair_isSome {st : Term Sub} (h : goodSubB st = true) :
    (entryRepair st).isSome = true := by
  rcases hb : st.term.blocks with _ | ⟨b0, tl⟩
  · simp [entryRepair, hb]
  · simp only [entryRepair, hb]
    split
    · rfl
    · rename_i hne
      simp only [goodSubB, hb, Bool.or_eq_true, List.isEmpty_cons, List.any_eq_true,
        beq_iff_eq] at h
      rcases h with h | ⟨b, hbm, haddr⟩
      · exact absurd h (by simp)
      · have hf := findStartIdx_isSome ⟨b, hbm, haddr⟩
        cases hfi : findStartIdx st.tid.address (b0 :: tl) with
        | none => rw [hfi] at hf; simp at hf
        | some i => rfl

theorem normalizeSub_good (st : Term Sub) : goodSubB (normalizeSub st).fst = true := by
  rcases hb : st.term.blocks with _ | ⟨b0, tl⟩
  · simp [normalizeSub, hb, goodSubB]
  · simp only [normalizeSub, hb]
    split
    · simp [goodSubB]
    · rename_i hcond
      simp only [goodSubB, hb, Bool.or_eq_true, List.isEmpty_cons, List.any_eq_true,
        beq_iff_eq]
      by_cases heq : st.tid.address = b0.tid.address
      · right
        exact ⟨b0, by simp [hb], heq.symm⟩
      · have hfind : ¬ ((List.find? (fun block => decide (block.tid.address = st.tid.address))
            (b0 :: tl)).isNone = true) := fun hn => hcond ⟨heq, hn⟩
        cases hf : List.find? (fun block => decide (block.tid.address = st.tid.address))
            (b0 :: tl) with
        | none => rw [hf] at hfind; simp at hfind
        | some b =>
          right
          have hmem := List.mem_of_find?_eq_some hf
          have hpred := List.find?_some hf
          simp only [decide_eq_true_eq] at hpred
          exact ⟨b, hmem, hpred⟩

theorem subEntryOkB_congr (st st' : Term IrSub) (htid : st'.tid = st.tid)
    (hblocks : st'.term.blocks.map Term.tid = st.term.blocks.map Term.tid) :
    subEntryOkB st' = subEntryOkB st := by
  rcases hb' : st'.term.blocks with _ | ⟨c0, ctl⟩ <;>
    rcases hb : st.term.blocks with _ | ⟨b0, btl⟩ <;>
      rw [hb', hb] at hblocks <;> simp only [List.map_cons, List.map_nil] at hblocks
  · simp [subEntryOkB, hb', hb]
  · exact absurd hblocks (by simp)
  · exact absurd hblocks (by simp)
  · simp only [subEntryOkB, hb', hb]
    injection hblocks with h1 h2
    rw [htid, h1]

theorem intoIrSubTerm_entryOk {sub : Term Sub} {irsub : Term IrSub}
    (h : Term.intoIrSubTerm sub = some irsub) :
    subEntryOkB irsub = true := by
  simp only [Term.intoIrSubTerm, optBind_eq_some, Option.pure_def, Option.some_inj] at h
  obtain ⟨blocks, hrep, irblocks, hmap, hsub⟩ := h
  have htids : irblocks.map Term.tid = blocks.map Term.tid := by
    refine mapOpt_map_eq Term.tid Term.tid ?_ _ _ hmap
    intro x y hxy
    obtain ⟨b, _, hy⟩ := Option.map_eq_some'.mp hxy
    subst hy
    rfl
  rcases entryRepair_good hrep with hnil | ⟨b, rest, hcons, haddr⟩
  · subst hnil
    simp only [List.map_nil, List.map_eq_nil_iff] at htids
    rw [← hsub]
    simp [subEntryOkB, htids]
  · subst hcons
    rcases hib : irblocks with _ | ⟨c0, ctl⟩
    · rw [hib] at htids
      simp at htids
    · rw [hib] at htids
      simp only [List.map_cons, List.cons.injEq] at htids
      rw [← hsub]
      simp only [subEntryOkB, hib]
      rw [htids.1, haddr]
      simp

theorem processBlocksLoop_tids (rmap : List RegisterProperties) :
    ∀ (acc : List Tid) (bts : List (Term IrBlk)),
    ((processBlocksLoop rmap acc bts).fst).map Term.tid = bts.map Term.tid := by
  intro acc bts
  induction bts generalizing acc with
  | nil => rfl
  | cons bt rest ih => simp [processBlocksLoop, ih, processIrBlkTerm]

theorem processSubsLoop_entryOk (rmap : List RegisterProperties) :
    ∀ (acc : List Tid) (sts : List (Term IrSub)),
    (∀ st ∈ sts, subEntryOkB st = true) →
    ∀ st' ∈ (processSubsLoop rmap acc sts).fst, subEntryOkB st' = true := by
  intro acc sts
  induction sts generalizing acc with
  | nil => intro _ st' h'; simp [processSubsLoop] at h'
  | cons st rest ih =>
    intro hall st' hst'
    simp only [processSubsLoop, List.mem_cons] at hst'
    rcases hst' with rfl | hst'
    · have hcongr := subEntryOkB_congr st
        { tid := st.tid,
          term := { name := st.term.name,
                    blocks := (processBlocksLoop rmap acc st.term.blocks).fst } }
        rfl (processBlocksLoop_tids rmap acc st.term.blocks)
      rw [hcongr]
      exact hall st (List.mem_cons_self st rest)
    · exact ih _ (fun s hs => hall s (List.mem_cons_of_mem st hs)) st' hst'

/-- Claim C1: every sub of the program emitted by the full pipeline
(normalize followed by the project conversion) has an empty block list or a
first block whose identifier address equals the identifier address of the
sub. -/
theorem c1_entry_block_invariant (p : Project) (base : Nat)
    (r : IrProject × List LogMessage) (h : fullPipeline p base = some r) :
    entryInvariantB r.fst.program.term = true := by
  simp only [fullPipeline, optBind_eq_some, Option.pure_def, Option.some_inj] at h
  obtain ⟨r0, _, ir, hproj, hr⟩ := h
  rw [← hr]
  simp only [Project.into_ir_project, optBind_eq_some, Option.pure_def,
    Option.some_inj] at hproj
  obtain ⟨progTerm, hprog, spr, _, hir⟩ := hproj
  rw [← hir]
  simp only [entryInvariantB]
  rw [List.all_eq_true]
  intro st' hst'
  refine processSubsLoop_entryOk _ _ _ ?_ st' hst'
  intro st hst
  simp only [Program.into_ir_program, optBind_eq_some, Option.pure_def,
    Option.some_inj] at hprog
  obtain ⟨subs, hsubs, ext, _, parsed, _, off, _, hpt⟩ := hprog
  rw [← hpt] at hst
  obtain ⟨x, _, hfx⟩ := mapOpt_mem hsubs st hst
  exact intoIrSubTerm_entryOk hfx

/-- Witness for C1 at a concrete project on which the full pipeline
succeeds. -/
theorem c1_witness : entryInvariantB pairW1.fst.program.term = true :=
  c1_entry_block_invariant pW1 0 pairW1 rfl

/-- Claim C2: after normalization, every sub has an empty block list or some
block whose identifier address equals the identifier address of the sub, so
the entry-block repair of the sub conversion always succeeds — the fatal
path for a non-empty function without a correctly addressed starting block is
unreachable. -/
theorem c2_no_fatal_after_normalize (p : Project) (r : Project × List LogMessage)
    (h : Project.normalize p = some r) :
    r.fst.program.term.subs.all
      (fun st => goodSubB st && (entryRepair st).isSome) = true := by
  simp only [Project.normalize, optBind_eq_some, Option.pure_def, Option.some_inj] at h
  obtain ⟨subs_a, _, hr⟩ := h
  rw [← hr]
  rw [List.all_eq_true]
  intro st hst
  simp only [List.map_map, List.mem_map] at hst
  obtain ⟨st0, _, hst0⟩ := hst
  rw [Bool.and_eq_true]
  have hg := normalizeSub_good st0
  constructor
  · rw [← hst0]
    exact hg
  · rw [← hst0]
    exact goodSub_entryRepair_isSome hg

/-- Witness for C2 at a concrete project containing a dead function. -/
theorem c2_witness :
    pairW2.fst.program.term.subs.all
      (fun st => goodSubB st && (entryRepair st).isSome) = true :=
  c2_no_fatal_after_normalize pW2 pairW2 rfl

end CweChecker
